import Mathlib

/-!
Verification of the core scene-detection and segment-merging algorithms of the
video-analytics repository, as a shallow embedding in Lean.

Python strings are modelled as lists of characters (PyStr), Python floats as
rationals, and perceptual hashes as integers (the code only ever uses the
absolute difference of two hashes against an integer threshold, which the
embedding reproduces exactly).  Each embedded definition carries the name of
the source function it is translated from.
-/

set_option linter.unusedVariables false

/-- A Python string, modelled as its list of characters. -/
abbrev PyStr := List Char

/-- SearchResult (src/src/core/models.py).  The fields not read by any of the
embedded functions (formatted times, optional visual context, embedding,
image path) are omitted. -/
structure SearchResult where
  scene_id : PyStr
  video_id : PyStr
  video_title : PyStr
  scene_number : ℕ
  start_time : ℚ
  end_time : ℚ
  transcript : PyStr
  similarity_score : ℚ
deriving DecidableEq

/-- One time-coded transcript segment as returned by the external
transcription engine: a dict with keys start, end and text
(src/src/core/video_processor.py, _create_scene_transcripts).  The end key is
called endTime here because end is a reserved word in Lean. -/
structure TranscriptSegment where
  start : ℚ
  endTime : ℚ
  text : PyStr
deriving DecidableEq

/-- Absolute hash distance abs(hashes[i] - hashes[j]) used by the transition
detector (src/src/core/video_processor.py, lines 128 and 138-139), with the
hash list read through getD (all accesses made by the detector are in
bounds). -/
def hashDiff (hashes : List ℤ) (i j : ℕ) : ℤ :=
  |hashes.getD i 0 - hashes.getD j 0|

/-- Temporal validation of a candidate transition at index i
(src/src/core/video_processor.py, lines 132-146): is_real_transition starts
true; for interior indices (1 < i and i < len - 1) the code computes
prev_prev_diff and next_diff, keeps true when both are at most the threshold,
sets false when prev_prev_diff exceeds the threshold, and otherwise leaves
the initial true. -/
def isRealTransition (hashes : List ℤ) (threshold : ℤ) (i : ℕ) : Bool :=
  if 1 < i ∧ i < hashes.length - 1 then
    let prevPrevDiff := hashDiff hashes (i - 1) (i - 2)
    let nextDiff := hashDiff hashes (i + 1) i
    if prevPrevDiff ≤ threshold ∧ nextDiff ≤ threshold then true
    else if threshold < prevPrevDiff then false
    else true
  else true

/-- The detection loop of _detect_slide_transitions
(src/src/core/video_processor.py, lines 119-161), returning the list of
confirmed transition indices into the fingerprint list (index i stands for
the sample pair (i-1, i); the code emits timestamps[i] and a frame filename
for each confirmed index, in increasing index order).  The loop runs i from
1 to len-1 and confirms i when the hash difference exceeds the threshold and
the temporal validation accepts it; when fewer than 2 fingerprints exist the
range is empty and no transition is produced, matching the early return. -/
def detect_slide_transitions (hashes : List ℤ) (threshold : ℤ) : List ℕ :=
  (List.range hashes.length).filter
    (fun i => decide (1 ≤ i) && decide (threshold < hashDiff hashes i (i - 1))
      && isRealTransition hashes threshold i)

/-- Temporal validation accepts index i exactly when i is not an interior
index whose preceding hop also exceeds the threshold; the next_diff value
computed by the code never influences the outcome. -/
theorem isRealTransition_iff (hashes : List ℤ) (threshold : ℤ) (i : ℕ) :
    isRealTransition hashes threshold i = true ↔
      ¬(1 < i ∧ i + 1 < hashes.length ∧
        threshold < hashDiff hashes (i - 1) (i - 2)) := by
  unfold isRealTransition
  split
  · next hint =>
    obtain ⟨h1, h2⟩ := hint
    dsimp only
    split
    · next hboth =>
      refine ⟨fun _ hcon => ?_, fun _ => rfl⟩
      exact absurd hboth.1 (not_le.mpr hcon.2.2)
    · next hnotboth =>
      split
      · next hprev =>
        refine ⟨fun h => (Bool.false_ne_true h).elim, fun h => (h ⟨h1, by omega, hprev⟩).elim⟩
      · next hprevle =>
        refine ⟨fun _ hcon => ?_, fun _ => rfl⟩
        exact hprevle hcon.2.2
  · next hnotint =>
    refine ⟨fun _ hcon => ?_, fun _ => rfl⟩
    exact hnotint ⟨hcon.1, by omega⟩

/-- C5: a candidate index i (hop distance diff(i-1,i) above the threshold) is
confirmed by the transition detector if and only if it is not an interior
index (1 < i and i < len-1) whose preceding hop diff(i-2,i-1) also exceeds
the threshold; candidates at the first and last comparable indices are always
confirmed.  Concretely, the hash list [0,2,4,13,15,17] realises the distance
sequence [2,2,9,2,2] and at threshold 5 yields exactly the one confirmed
transition at the index of the 9, and the list [0,9,18,27,29] realises
[9,9,9,2], where only the first 9 is confirmed and the second 9 (index 2) is
rejected as an animation pattern. -/
theorem detect_slide_transitions_characterization :
    (∀ (hashes : List ℤ) (threshold : ℤ) (i : ℕ),
      i ∈ detect_slide_transitions hashes threshold ↔
        (1 ≤ i ∧ i < hashes.length ∧
          threshold < hashDiff hashes i (i - 1) ∧
          ¬(1 < i ∧ i + 1 < hashes.length ∧
            threshold < hashDiff hashes (i - 1) (i - 2)))) ∧
    detect_slide_transitions [0, 2, 4, 13, 15, 17] 5 = [3] ∧
    detect_slide_transitions [0, 9, 18, 27, 29] 5 = [1] := by
  refine ⟨fun hashes threshold i => ?_, by decide, by decide⟩
  unfold detect_slide_transitions
  rw [List.mem_filter, List.mem_range]
  rw [Bool.and_assoc, Bool.and_eq_true, Bool.and_eq_true,
    decide_eq_true_eq, decide_eq_true_eq, isRealTransition_iff]
  constructor
  · rintro ⟨hlen, h1, hdiff, hreal⟩
    exact ⟨h1, hlen, hdiff, hreal⟩
  · rintro ⟨h1, hlen, hdiff, hreal⟩
    exact ⟨hlen, h1, hdiff, hreal⟩

/-- filter_truly_relevant_scenes (src/openai_analyzer_clean.py, lines
165-316), abstracted over the external oracle: the whole body sits inside
one try/except, so every failure mode of the call or of the response
parsing (unparseable JSON, non-dict value, non-integer indices) reaches the
except handler and returns the input list unchanged; this is modelled as
the oracleResponse none.  A successfully parsed response supplies a list
of integer scene numbers (1-based); the loop at lines 304-307 keeps those
within 1..len(search_results) and looks up search_results[scene_num - 1],
silently skipping the rest. -/
def filter_truly_relevant_scenes (oracleResponse : Option (List ℤ))
    (search_results : List SearchResult) : List SearchResult :=
  match oracleResponse with
  | none => search_results
  | some relevant_indices =>
    relevant_indices.filterMap
      (fun scene_num =>
        if 1 ≤ scene_num ∧ scene_num ≤ (search_results.length : ℤ) then
          search_results.get? (scene_num - 1).toNat
        else
          none)

/-- Outcome of the relevance-filtering stage of the search endpoint: no
semantic-search candidates at all, an explicit empty "nothing relevant"
response, or a non-empty list the request proceeds with. -/
inductive SearchOutcome where
  | noResults : SearchOutcome
  | nothingRelevant : SearchOutcome
  | proceed : List SearchResult → SearchOutcome
deriving DecidableEq

/-- The candidate-selection logic of search_videos (src/main.py, lines
194-221): when semantic search returned candidates, the oracle filter runs;
an empty filtered list triggers the early return at lines 209-214 (surfaced
as a response with no merged video); only then comes the line 217 check
that would substitute the top 2 raw results when the filtered list is empty
and candidates exist, faithfully reproduced here even though the early
return makes it unreachable. -/
def search_videos_selection (results : List SearchResult)
    (oracleResponse : Option (List ℤ)) : SearchOutcome :=
  if results.isEmpty then
    SearchOutcome.noResults
  else
    let filtered_results := filter_truly_relevant_scenes oracleResponse results
    if filtered_results.isEmpty then
      SearchOutcome.nothingRelevant
    else
      let filtered_results' :=
        if filtered_results.isEmpty ∧ ¬results.isEmpty then results.take 2
        else filtered_results
      SearchOutcome.proceed filtered_results'

/-- C9: whatever the oracle answers, every scene returned by
filter_truly_relevant_scenes is one of the input candidates (out-of-range
1-based indices are skipped rather than raising), and any parsing failure
returns the input list unchanged, so the filter never invents a scene. -/
theorem filter_truly_relevant_scenes_subset :
    ∀ (oracleResponse : Option (List ℤ)) (search_results : List SearchResult),
      (∀ x, x ∈ filter_truly_relevant_scenes oracleResponse search_results →
        x ∈ search_results) ∧
      filter_truly_relevant_scenes none search_results = search_results := by
  intro oracleResponse search_results
  refine ⟨fun x hx => ?_, rfl⟩
  cases oracleResponse with
  | none => exact hx
  | some relevant_indices =>
    unfold filter_truly_relevant_scenes at hx
    rw [List.mem_filterMap] at hx
    obtain ⟨scene_num, -, hget⟩ := hx
    split at hget
    · exact List.get?_mem hget
    · exact absurd hget (Option.noConfusion)

/-- C9 witness: the subset theorem applied at a concrete oracle response
holding an in-range, an out-of-range and a non-positive index. -/
theorem filter_truly_relevant_scenes_subset_witness :
    (⟨"s1".data, "v1".data, "t1".data, 1, 0, 10, "a".data, 1⟩ : SearchResult) ∈
      filter_truly_relevant_scenes (some [1, 7, 0])
        [⟨"s1".data, "v1".data, "t1".data, 1, 0, 10, "a".data, 1⟩] ∧
    (⟨"s1".data, "v1".data, "t1".data, 1, 0, 10, "a".data, 1⟩ : SearchResult) ∈
      [(⟨"s1".data, "v1".data, "t1".data, 1, 0, 10, "a".data, 1⟩ : SearchResult)] :=
  ⟨by decide,
    (filter_truly_relevant_scenes_subset (some [1, 7, 0])
      [⟨"s1".data, "v1".data, "t1".data, 1, 0, 10, "a".data, 1⟩]).1
      _ (by decide)⟩

/-- C3: failing input for the documented fallback.  With one candidate and a
well-formed oracle response whose relevant_scenes list is empty, the filter
returns the empty list and search_videos takes the early return at lines
209-214, surfacing an empty result even though candidates existed; the top-2
fallback written at lines 216-219 can never run because it is placed after
that early return.  The claim (and the comment in the code itself) say a
non-empty fixed-size fallback should have been returned. -/
theorem search_videos_empty_oracle_no_fallback :
    search_videos_selection
        [⟨"s1".data, "v1".data, "t1".data, 1, 0, 10, "a".data, 1⟩]
        (some []) = SearchOutcome.nothingRelevant ∧
    filter_truly_relevant_scenes (some [])
        [⟨"s1".data, "v1".data, "t1".data, 1, 0, 10, "a".data, 1⟩] = [] ∧
    ([⟨"s1".data, "v1".data, "t1".data, 1, 0, 10, "a".data, 1⟩] :
      List SearchResult) ≠ [] := by
  refine ⟨rfl, rfl, by decide⟩

/-- The keep/drop loop of _consolidate_short_scenes
(src/src/core/video_processor.py, lines 176-189): walking the remaining
transitions with the timestamp of the last kept transition in hand, a
transition is appended exactly when its gap to the last KEPT transition is
at least min_scene_duration (rejected transitions do not advance the
baseline). -/
def consolidateAux (min_scene_duration : ℚ) (last_kept_time : ℚ) :
    List (ℚ × PyStr) → List (ℚ × PyStr)
  | [] => []
  | x :: xs =>
    if min_scene_duration ≤ x.1 - last_kept_time then
      x :: consolidateAux min_scene_duration x.1 xs
    else
      consolidateAux min_scene_duration last_kept_time xs

/-- _consolidate_short_scenes (src/src/core/video_processor.py, lines
168-191): inputs with fewer than 2 transitions are returned unchanged, the
first transition is always kept, and the rest pass through the single
left-to-right consolidation walk. -/
def consolidate_short_scenes (slide_changes : List (ℚ × PyStr))
    (min_scene_duration : ℚ) : List (ℚ × PyStr) :=
  if slide_changes.length < 2 then slide_changes
  else
    match slide_changes with
    | [] => []
    | x :: xs => x :: consolidateAux min_scene_duration x.1 xs

/-- Raising the kept-so-far baseline never increases, and lowers by at most
one, the number of transitions the consolidation walk keeps (simultaneous
induction; both directions feed each other on the tail). -/
theorem consolidateAux_baseline_mono (xs : List (ℚ × PyStr))
    (hs : List.Sorted (fun a b : ℚ × PyStr => a.1 ≤ b.1) xs) :
    (∀ d last last' : ℚ, last ≤ last' → (∀ y ∈ xs, last ≤ y.1) →
      (consolidateAux d last' xs).length ≤ (consolidateAux d last xs).length) ∧
    (∀ d last last' : ℚ, last ≤ last' → (∀ y ∈ xs, last' ≤ y.1) →
      (consolidateAux d last xs).length ≤ 1 + (consolidateAux d last' xs).length) := by
  induction xs with
  | nil =>
    exact ⟨fun d last last' _ _ => le_refl _,
      fun d last last' _ _ => by simp [consolidateAux]⟩
  | cons x xs ih =>
    have hs' := (List.sorted_cons.mp hs).2
    have hx : ∀ y ∈ xs, x.1 ≤ y.1 := (List.sorted_cons.mp hs).1
    obtain ⟨ihM, ihB⟩ := ih hs'
    constructor
    · intro d last last' hll hbnd
      by_cases h' : d ≤ x.1 - last'
      · have h : d ≤ x.1 - last := by linarith
        simp only [consolidateAux, if_pos h, if_pos h']
        exact le_refl _
      · by_cases h : d ≤ x.1 - last
        · simp only [consolidateAux, if_pos h, if_neg h', List.length_cons]
          rcases le_total last' x.1 with hc | hc
          · have := ihB d last' x.1 hc hx
            omega
          · have := ihM d x.1 last' hc hx
            omega
        · simp only [consolidateAux, if_neg h, if_neg h']
          exact ihM d last last' hll (fun y hy => hbnd y (List.mem_cons_of_mem _ hy))
    · intro d last last' hll hbnd
      have hlx : last' ≤ x.1 := hbnd x (List.mem_cons_self _ _)
      by_cases h' : d ≤ x.1 - last'
      · have h : d ≤ x.1 - last := by linarith
        simp only [consolidateAux, if_pos h, if_pos h', List.length_cons]
        omega
      · by_cases h : d ≤ x.1 - last
        · simp only [consolidateAux, if_pos h, if_neg h', List.length_cons]
          have := ihM d last' x.1 hlx (fun y hy => hbnd y (List.mem_cons_of_mem _ hy))
          omega
        · simp only [consolidateAux, if_neg h, if_neg h']
          exact ihB d last last' hll (fun y hy => hbnd y (List.mem_cons_of_mem _ hy))

/-- A larger minimum scene duration keeps at most as many transitions, for
any baseline below the whole list. -/
theorem consolidateAux_length_anti (xs : List (ℚ × PyStr))
    (hs : List.Sorted (fun a b : ℚ × PyStr => a.1 ≤ b.1) xs) :
    ∀ d1 d2 last : ℚ, d1 ≤ d2 → (∀ y ∈ xs, last ≤ y.1) →
      (consolidateAux d2 last xs).length ≤ (consolidateAux d1 last xs).length := by
  induction xs with
  | nil => intro d1 d2 last _ _; exact le_refl _
  | cons x xs ih =>
    intro d1 d2 last hd hbnd
    have hs' := (List.sorted_cons.mp hs).2
    have hx : ∀ y ∈ xs, x.1 ≤ y.1 := (List.sorted_cons.mp hs).1
    have hlx : last ≤ x.1 := hbnd x (List.mem_cons_self _ _)
    by_cases h2 : d2 ≤ x.1 - last
    · have h1 : d1 ≤ x.1 - last := le_trans hd h2
      simp only [consolidateAux, if_pos h1, if_pos h2, List.length_cons]
      have := ih hs' d1 d2 x.1 hd hx
      omega
    · by_cases h1 : d1 ≤ x.1 - last
      · simp only [consolidateAux, if_pos h1, if_neg h2, List.length_cons]
        have hB := (consolidateAux_baseline_mono xs hs').2 d2 last x.1 hlx hx
        have hK := ih hs' d1 d2 x.1 hd hx
        omega
      · simp only [consolidateAux, if_neg h1, if_neg h2]
        exact ih hs' d1 d2 last hd (fun y hy => hbnd y (List.mem_cons_of_mem _ hy))

/-- With min_scene_duration zero every gap in a sorted list passes the keep
test, so the walk is the identity. -/
theorem consolidateAux_zero (xs : List (ℚ × PyStr))
    (hs : List.Sorted (fun a b : ℚ × PyStr => a.1 ≤ b.1) xs) :
    ∀ last : ℚ, (∀ y ∈ xs, last ≤ y.1) → consolidateAux 0 last xs = xs := by
  induction xs with
  | nil => intro last _; rfl
  | cons x xs ih =>
    intro last hbnd
    have hlx : last ≤ x.1 := hbnd x (List.mem_cons_self _ _)
    have h : (0 : ℚ) ≤ x.1 - last := by linarith
    simp only [consolidateAux, if_pos h]
    exact congrArg (x :: ·)
      (ih (List.sorted_cons.mp hs).2 x.1 (List.sorted_cons.mp hs).1)

/-- C6: on a list of transitions sorted in non-decreasing timestamp order,
consolidating with min_scene_duration 0 returns the input unchanged, and for
thresholds d1 at most d2 the d2-consolidation keeps at most as many
transitions as the d1-consolidation. -/
theorem consolidate_short_scenes_monotone (slide_changes : List (ℚ × PyStr))
    (hs : List.Sorted (fun a b : ℚ × PyStr => a.1 ≤ b.1) slide_changes) :
    consolidate_short_scenes slide_changes 0 = slide_changes ∧
    ∀ d1 d2 : ℚ, d1 ≤ d2 →
      (consolidate_short_scenes slide_changes d2).length ≤
        (consolidate_short_scenes slide_changes d1).length := by
  constructor
  · by_cases hlen : slide_changes.length < 2
    · unfold consolidate_short_scenes
      rw [if_pos hlen]
    · unfold consolidate_short_scenes
      rw [if_neg hlen]
      cases slide_changes with
      | nil => exact absurd (by simp) hlen
      | cons x xs =>
        exact congrArg (x :: ·)
          (consolidateAux_zero xs (List.sorted_cons.mp hs).2 x.1
            (List.sorted_cons.mp hs).1)
  · intro d1 d2 hd
    by_cases hlen : slide_changes.length < 2
    · unfold consolidate_short_scenes
      rw [if_pos hlen, if_pos hlen]
    · unfold consolidate_short_scenes
      rw [if_neg hlen, if_neg hlen]
      cases slide_changes with
      | nil => exact absurd (by simp) hlen
      | cons x xs =>
        simp only [List.length_cons]
        have := consolidateAux_length_anti xs (List.sorted_cons.mp hs).2
          d1 d2 x.1 hd (List.sorted_cons.mp hs).1
        omega

/-- C6 witness: the consolidation theorem applied to the sorted list of
transitions at 0, 4 and 5 seconds. -/
theorem consolidate_short_scenes_monotone_witness :
    (List.Sorted (fun a b : ℚ × PyStr => a.1 ≤ b.1)
      [((0 : ℚ), "a".data), (4, "b".data), (5, "c".data)]) ∧
    (consolidate_short_scenes [((0 : ℚ), "a".data), (4, "b".data), (5, "c".data)] 0 =
        [((0 : ℚ), "a".data), (4, "b".data), (5, "c".data)] ∧
      ∀ d1 d2 : ℚ, d1 ≤ d2 →
        (consolidate_short_scenes
            [((0 : ℚ), "a".data), (4, "b".data), (5, "c".data)] d2).length ≤
          (consolidate_short_scenes
            [((0 : ℚ), "a".data), (4, "b".data), (5, "c".data)] d1).length) :=
  ⟨by decide,
    consolidate_short_scenes_monotone
      [((0 : ℚ), "a".data), (4, "b".data), (5, "c".data)] (by decide)⟩

/-- The pairing loop of _generate_scene_list_from_slides
(src/src/core/video_processor.py, lines 200-201): consecutive transition
timestamps become scene intervals. -/
def consecutivePairs : List (ℚ × PyStr) → List (ℚ × ℚ)
  | a :: b :: rest => (a.1, b.1) :: consecutivePairs (b :: rest)
  | _ => []

/-- _generate_scene_list_from_slides (src/src/core/video_processor.py, lines
193-208): fewer than 2 transitions give a single scene from the first
transition timestamp (0.0 for an empty list) to the video duration;
otherwise consecutive transitions pair up and a trailing scene up to the
video duration is appended when the final transition lies before it. -/
def generate_scene_list_from_slides (slide_changes : List (ℚ × PyStr))
    (video_duration : ℚ) : List (ℚ × ℚ) :=
  if slide_changes.length < 2 then
    [((slide_changes.headD ((0 : ℚ), ([] : PyStr))).1, video_duration)]
  else
    consecutivePairs slide_changes ++
      (if (slide_changes.getLastD ((0 : ℚ), ([] : PyStr))).1 < video_duration then
        [((slide_changes.getLastD ((0 : ℚ), ([] : PyStr))).1, video_duration)]
      else [])

/-- Last transition timestamp of a slide-change list (0 when empty). -/
def lastTimestamp (l : List (ℚ × PyStr)) : ℚ :=
  (l.getLastD ((0 : ℚ), ([] : PyStr))).1

theorem getLastD_default_irrel (z : ℚ × PyStr) (l : List (ℚ × PyStr))
    (d1 d2 : ℚ × PyStr) : (z :: l).getLastD d1 = (z :: l).getLastD d2 := by
  induction l generalizing z with
  | nil => rfl
  | cons w l ih => simp only [List.getLastD_cons]

theorem getLast?_eq_some_getLastD (y : ℚ × PyStr) (l : List (ℚ × PyStr)) :
    (y :: l).getLast? = some ((y :: l).getLastD ((0 : ℚ), ([] : PyStr))) := by
  induction l generalizing y with
  | nil => rfl
  | cons z l ih =>
    rw [List.getLast?_cons_cons, ih z]
    have h2 : (y :: z :: l).getLastD ((0 : ℚ), ([] : PyStr)) =
        (z :: l).getLastD y := by
      rw [List.getLastD_cons]
    rw [h2]
    exact congrArg some (getLastD_default_irrel z l _ _)

theorem lastTimestamp_cons_cons (a b : ℚ × PyStr) (l : List (ℚ × PyStr)) :
    lastTimestamp (a :: b :: l) = lastTimestamp (b :: l) := by
  unfold lastTimestamp
  rw [List.getLastD_cons]
  exact congrArg Prod.fst (getLastD_default_irrel b l a ((0 : ℚ), ([] : PyStr)))

theorem getLastD_mem_pairs (l : List (ℚ × PyStr)) (h : l ≠ []) :
    l.getLastD ((0 : ℚ), ([] : PyStr)) ∈ l := by
  cases l with
  | nil => exact absurd rfl h
  | cons y l =>
    have hsome := getLast?_eq_some_getLastD y l
    exact List.mem_of_mem_getLast? (by rw [hsome]; rfl)

theorem sorted_head_le_lastTimestamp (b : ℚ × PyStr) (rest : List (ℚ × PyStr))
    (hs : List.Sorted (fun p q : ℚ × PyStr => p.1 ≤ q.1) (b :: rest)) :
    b.1 ≤ lastTimestamp (b :: rest) := by
  have hmem := getLastD_mem_pairs (b :: rest) (List.cons_ne_nil _ _)
  rcases List.mem_cons.mp hmem with heq | hmem'
  · rw [lastTimestamp, heq]
  · exact (List.sorted_cons.mp hs).1 _ hmem'

theorem consecutivePairs_chain (l : List (ℚ × PyStr)) :
    List.Chain' (fun p q : ℚ × ℚ => p.2 = q.1) (consecutivePairs l) := by
  induction l with
  | nil => exact List.chain'_nil
  | cons a l ih =>
    cases l with
    | nil => exact List.chain'_nil
    | cons b rest =>
      rw [consecutivePairs, List.chain'_cons']
      refine ⟨fun q hq => ?_, ih⟩
      cases rest with
      | nil => simp [consecutivePairs] at hq
      | cons c rs =>
        simp only [consecutivePairs, List.head?_cons, Option.mem_def,
          Option.some.injEq] at hq
        rw [← hq]

theorem consecutivePairs_getLast_snd (a b : ℚ × PyStr)
    (l : List (ℚ × PyStr)) :
    (consecutivePairs (a :: b :: l)).getLast?.map Prod.snd =
      ((a :: b :: l).getLast?).map Prod.fst := by
  induction l generalizing a b with
  | nil => rfl
  | cons c rs ih =>
    have hcp : consecutivePairs (a :: b :: c :: rs) =
        (a.1, b.1) :: (b.1, c.1) :: consecutivePairs (c :: rs) := rfl
    rw [hcp, List.getLast?_cons_cons, List.getLast?_cons_cons]
    exact ih b c

theorem consecutivePairs_mem_le (l : List (ℚ × PyStr))
    (hs : List.Sorted (fun p q : ℚ × PyStr => p.1 ≤ q.1) l) :
    ∀ p ∈ consecutivePairs l, p.1 ≤ p.2 := by
  induction l with
  | nil => intro p hp; simp [consecutivePairs] at hp
  | cons a l ih =>
    cases l with
    | nil => intro p hp; simp [consecutivePairs] at hp
    | cons b rest =>
      intro p hp
      rw [consecutivePairs, List.mem_cons] at hp
      rcases hp with heq | hp
      · rw [heq]
        exact (List.sorted_cons.mp hs).1 b (List.mem_cons_self _ _)
      · exact ih (List.sorted_cons.mp hs).2 p hp

theorem consecutivePairs_cover (l : List (ℚ × PyStr)) :
    ∀ a : ℚ × PyStr,
      List.Sorted (fun p q : ℚ × PyStr => p.1 ≤ q.1) (a :: l) →
      ∀ x : ℚ,
        (∃ p ∈ consecutivePairs (a :: l), p.1 ≤ x ∧ x < p.2) ↔
          (a.1 ≤ x ∧ x < lastTimestamp (a :: l)) := by
  induction l with
  | nil =>
    intro a hs x
    constructor
    · rintro ⟨p, hp, -⟩
      simp [consecutivePairs] at hp
    · rintro ⟨h1, h2⟩
      rw [lastTimestamp] at h2
      simp only [List.getLastD] at h2
      exact absurd (lt_of_le_of_lt h1 h2) (lt_irrefl _)
  | cons b rest ih =>
    intro a hs x
    have hab : a.1 ≤ b.1 := (List.sorted_cons.mp hs).1 b (List.mem_cons_self _ _)
    have hblast : b.1 ≤ lastTimestamp (b :: rest) :=
      sorted_head_le_lastTimestamp b rest (List.sorted_cons.mp hs).2
    rw [lastTimestamp_cons_cons]
    have hsplit : (∃ p ∈ consecutivePairs (a :: b :: rest), p.1 ≤ x ∧ x < p.2) ↔
        ((a.1 ≤ x ∧ x < b.1) ∨
          ∃ p ∈ consecutivePairs (b :: rest), p.1 ≤ x ∧ x < p.2) := by
      rw [consecutivePairs]
      simp only [List.mem_cons, exists_eq_or_imp]
    rw [hsplit, ih b (List.sorted_cons.mp hs).2 x]
    constructor
    · rintro (⟨h1, h2⟩ | ⟨h1, h2⟩)
      · exact ⟨h1, lt_of_lt_of_le h2 hblast⟩
      · exact ⟨le_trans hab h1, h2⟩
    · rintro ⟨h1, h2⟩
      by_cases hx : x < b.1
      · exact Or.inl ⟨h1, hx⟩
      · exact Or.inr ⟨not_lt.mp hx, h2⟩

/-- C1 counterexample: with one consolidated transition at 5.0 s (sorted,
inside [0, 10)) and duration 10, the scene list is [(5, 10)], whose first
start is 5, not 0, and whose union does not contain the point 0, so it is
not [0, 10) as the claim states. -/
theorem generate_scene_list_not_covering_zero :
    generate_scene_list_from_slides [((5 : ℚ), "Scene-001.jpg".data)] 10 =
      [((5 : ℚ), (10 : ℚ))] ∧
    ((generate_scene_list_from_slides
        [((5 : ℚ), "Scene-001.jpg".data)] 10).headD ((0 : ℚ), (0 : ℚ))).1 ≠ 0 ∧
    ¬ ∃ p ∈ generate_scene_list_from_slides
        [((5 : ℚ), "Scene-001.jpg".data)] 10,
        p.1 ≤ (0 : ℚ) ∧ (0 : ℚ) < p.2 := by
  decide

/-- C1 (amended): for every positive duration D and sorted list of
consolidated transitions with timestamps in [0, D), the scene list builder
returns a non-empty contiguous chain of intervals (each scene ends exactly
where the next starts, so there are no gaps and no overlaps) whose union is
exactly [t0, D), where t0 is the first transition timestamp when one exists
and 0.0 otherwise; the last scene always ends at D.  This holds for 0, 1 and
N transitions; the first scene starts at 0 only when there is no transition
or the first transition is at 0. -/
theorem generate_scene_list_partition (slide_changes : List (ℚ × PyStr))
    (video_duration : ℚ)
    (hs : List.Sorted (fun p q : ℚ × PyStr => p.1 ≤ q.1) slide_changes)
    (hmem : ∀ p ∈ slide_changes, 0 ≤ p.1 ∧ p.1 < video_duration)
    (hD : 0 < video_duration) :
    generate_scene_list_from_slides slide_changes video_duration ≠ [] ∧
    List.Chain' (fun p q : ℚ × ℚ => p.2 = q.1)
      (generate_scene_list_from_slides slide_changes video_duration) ∧
    ((generate_scene_list_from_slides slide_changes video_duration).headD
        ((0 : ℚ), (0 : ℚ))).1 =
      (slide_changes.headD ((0 : ℚ), ([] : PyStr))).1 ∧
    ((generate_scene_list_from_slides slide_changes video_duration).getLastD
        ((0 : ℚ), (0 : ℚ))).2 = video_duration ∧
    (∀ p ∈ generate_scene_list_from_slides slide_changes video_duration,
      p.1 ≤ p.2) ∧
    (∀ x : ℚ,
      (∃ p ∈ generate_scene_list_from_slides slide_changes video_duration,
        p.1 ≤ x ∧ x < p.2) ↔
      ((slide_changes.headD ((0 : ℚ), ([] : PyStr))).1 ≤ x ∧
        x < video_duration)) := by
  cases slide_changes with
  | nil =>
    have hout : generate_scene_list_from_slides [] video_duration =
        [((0 : ℚ), video_duration)] := rfl
    refine ⟨by rw [hout]; exact List.cons_ne_nil _ _,
      by rw [hout]; exact List.chain'_singleton _, by rw [hout]; rfl,
      by rw [hout]; rfl, ?_, ?_⟩
    · intro p hp
      rw [hout, List.mem_singleton] at hp
      rw [hp]
      exact hD.le
    · intro x
      rw [hout]
      simp only [List.mem_singleton, List.headD_nil]
      constructor
      · rintro ⟨p, hp, h1, h2⟩
        rw [hp] at h1 h2
        exact ⟨h1, h2⟩
      · rintro ⟨h1, h2⟩
        exact ⟨_, rfl, h1, h2⟩
  | cons a l =>
    cases l with
    | nil =>
      have hout : generate_scene_list_from_slides [a] video_duration =
          [(a.1, video_duration)] := rfl
      obtain ⟨ha0, haD⟩ := hmem a (List.mem_cons_self _ _)
      refine ⟨by rw [hout]; exact List.cons_ne_nil _ _,
        by rw [hout]; exact List.chain'_singleton _, by rw [hout]; rfl,
        by rw [hout]; rfl, ?_, ?_⟩
      · intro p hp
        rw [hout, List.mem_singleton] at hp
        rw [hp]
        exact haD.le
      · intro x
        rw [hout]
        simp only [List.mem_singleton, List.headD_cons]
        constructor
        · rintro ⟨p, hp, h1, h2⟩
          rw [hp] at h1 h2
          exact ⟨h1, h2⟩
        · rintro ⟨h1, h2⟩
          exact ⟨_, rfl, h1, h2⟩
    | cons b rest =>
      have hlen : ¬ ((a :: b :: rest).length < 2) := by
        simp only [List.length_cons]
        omega
      have hlast_mem := getLastD_mem_pairs (a :: b :: rest) (by simp)
      have hlastD :
          ((a :: b :: rest).getLastD ((0 : ℚ), ([] : PyStr))).1 <
            video_duration := (hmem _ hlast_mem).2
      have hout : generate_scene_list_from_slides (a :: b :: rest)
          video_duration =
          consecutivePairs (a :: b :: rest) ++
            [(lastTimestamp (a :: b :: rest), video_duration)] := by
        unfold generate_scene_list_from_slides lastTimestamp
        rw [if_neg hlen, if_pos hlastD]
      have hcp : consecutivePairs (a :: b :: rest) =
          (a.1, b.1) :: consecutivePairs (b :: rest) := rfl
      have halast : a.1 ≤ lastTimestamp (a :: b :: rest) :=
        sorted_head_le_lastTimestamp a (b :: rest) hs
      have hlastD' : lastTimestamp (a :: b :: rest) < video_duration := hlastD
      refine ⟨?_, ?_, ?_, ?_, ?_, ?_⟩
      · rw [hout, hcp]
        exact List.cons_ne_nil _ _
      · rw [hout, List.chain'_append]
        refine ⟨consecutivePairs_chain _, List.chain'_singleton _,
          fun p hp q hq => ?_⟩
        have hp' : (consecutivePairs (a :: b :: rest)).getLast? = some p :=
          Option.mem_def.mp hp
        have hq0 : (lastTimestamp (a :: b :: rest), video_duration) = q := by
          simpa using hq
        have hmap := consecutivePairs_getLast_snd a b rest
        rw [hp', getLast?_eq_some_getLastD] at hmap
        have hmap2 : p.2 = ((a :: b :: rest).getLastD ((0 : ℚ), ([] : PyStr))).1 :=
          Option.some.inj hmap
        rw [← hq0]
        exact hmap2
      · rw [hout, hcp]
        rfl
      · rw [hout, List.getLastD_eq_getLast?, List.getLast?_concat]
        rfl
      · intro p hp
        rw [hout, List.mem_append] at hp
        rcases hp with hp | hp
        · exact consecutivePairs_mem_le _ hs p hp
        · rw [List.mem_singleton] at hp
          rw [hp]
          exact hlastD'.le
      · intro x
        rw [hout]
        have hcov := consecutivePairs_cover (b :: rest) a hs x
        simp only [List.headD_cons]
        constructor
        · rintro ⟨p, hp, h1, h2⟩
          rw [List.mem_append] at hp
          rcases hp with hp | hp
          · have := hcov.mp ⟨p, hp, h1, h2⟩
            exact ⟨this.1, lt_of_lt_of_le this.2 hlastD'.le⟩
          · rw [List.mem_singleton] at hp
            rw [hp] at h1 h2
            exact ⟨le_trans halast h1, h2⟩
        · rintro ⟨h1, h2⟩
          by_cases hx : x < lastTimestamp (a :: b :: rest)
          · obtain ⟨p, hp, hpx⟩ := hcov.mpr ⟨h1, hx⟩
            exact ⟨p, List.mem_append.mpr (Or.inl hp), hpx⟩
          · exact ⟨(lastTimestamp (a :: b :: rest), video_duration),
              List.mem_append.mpr (Or.inr (List.mem_singleton.mpr rfl)),
              not_lt.mp hx, h2⟩

/-- C1 witness: the amended partition theorem applied to the empty
transition list with duration 1. -/
theorem generate_scene_list_partition_witness :
    (List.Sorted (fun p q : ℚ × PyStr => p.1 ≤ q.1)
      ([] : List (ℚ × PyStr))) ∧
    (∀ p ∈ ([] : List (ℚ × PyStr)), 0 ≤ p.1 ∧ p.1 < (1 : ℚ)) ∧
    ((0 : ℚ) < 1) ∧
    (generate_scene_list_from_slides [] 1 ≠ [] ∧
     List.Chain' (fun p q : ℚ × ℚ => p.2 = q.1)
       (generate_scene_list_from_slides [] 1) ∧
     ((generate_scene_list_from_slides [] 1).headD ((0 : ℚ), (0 : ℚ))).1 =
       (([] : List (ℚ × PyStr)).headD ((0 : ℚ), ([] : PyStr))).1 ∧
     ((generate_scene_list_from_slides [] 1).getLastD ((0 : ℚ), (0 : ℚ))).2 =
       1 ∧
     (∀ p ∈ generate_scene_list_from_slides [] 1, p.1 ≤ p.2) ∧
     (∀ x : ℚ,
       (∃ p ∈ generate_scene_list_from_slides [] 1, p.1 ≤ x ∧ x < p.2) ↔
       ((([] : List (ℚ × PyStr)).headD ((0 : ℚ), ([] : PyStr))).1 ≤ x ∧
         x < 1))) :=
  ⟨by decide, by decide, by norm_num,
    generate_scene_list_partition [] 1 (by decide) (by decide) (by norm_num)⟩

/-- Python strip() as used on the accumulated scene transcript
(src/src/core/video_processor.py, line 241): drop whitespace from both
ends. -/
def pyStrip (s : PyStr) : PyStr :=
  ((s.dropWhile Char.isWhitespace).reverse.dropWhile Char.isWhitespace).reverse

/-- The strict-overlap test of _create_scene_transcripts
(src/src/core/video_processor.py, line 226): the segment starts before the
scene ends and ends after the scene starts. -/
def overlapsScene (start : ℚ) (endt : ℚ) (seg : TranscriptSegment) : Bool :=
  decide (seg.start < endt) && decide (start < seg.endTime)

/-- The transcript text attached to one scene interval by
_create_scene_transcripts (src/src/core/video_processor.py, lines 222-241):
walk the transcript segments in their given order, append text plus one
space for each segment passing the strict-overlap test, and strip the
result. -/
def scene_transcript (start : ℚ) (endt : ℚ)
    (segments : List TranscriptSegment) : PyStr :=
  pyStrip ((segments.filter (overlapsScene start endt)).foldl
    (fun acc seg => acc ++ seg.text ++ [' ']) [])

/-- The space-joined concatenation named by the specification. -/
def spaceJoin (texts : List PyStr) : PyStr := List.intercalate [' '] texts

/-- C7 counterexample: a single overlapping segment whose text carries a
trailing space.  The code strips the accumulated text and yields "hi",
while the space-joined concatenation of the contributing texts is "hi due
to its trailing space", so the scene transcript is not in general the
space-join the claim states. -/
theorem scene_transcript_not_space_join :
    scene_transcript 0 10 [⟨0, 5, "hi ".data⟩] = "hi".data ∧
    spaceJoin
      ((([⟨(0 : ℚ), (5 : ℚ), "hi ".data⟩] :
          List TranscriptSegment).filter (overlapsScene 0 10)).map
        (fun seg => seg.text)) = "hi ".data ∧
    scene_transcript 0 10 [⟨0, 5, "hi ".data⟩] ≠
      spaceJoin
        ((([⟨(0 : ℚ), (5 : ℚ), "hi ".data⟩] :
            List TranscriptSegment).filter (overlapsScene 0 10)).map
          (fun seg => seg.text)) := by
  decide

theorem foldl_append_texts (l : List TranscriptSegment) (acc : PyStr) :
    l.foldl (fun acc seg => acc ++ seg.text ++ [' ']) acc =
      acc ++ (l.map (fun seg => seg.text ++ [' '])).flatten := by
  induction l generalizing acc with
  | nil => simp
  | cons x l ih =>
    rw [List.foldl_cons, ih, List.map_cons, List.flatten_cons]
    simp [List.append_assoc]

/-- C7 (amended): the transcript aligner assigns a scene the concatenation,
in original segment order, of each strictly-overlapping segment text
followed by one space, finally stripped of leading and trailing whitespace
(this equals the space-joined concatenation exactly when the texts carry no
surrounding whitespace, but not in general).  A segment is selected for a
scene [s, e) precisely when seg_start < e and seg_end > s, so a segment
overlapping several scenes contributes its full text to each; a scene with
no overlapping segment receives the empty string and no error; and for
scenes inside [0, D), a segment lying fully outside [0, D) is selected for
none of them. -/
theorem scene_transcript_aligner (start endt : ℚ)
    (segments : List TranscriptSegment) :
    (scene_transcript start endt segments =
      pyStrip ((segments.filter (overlapsScene start endt)).map
        (fun seg => seg.text ++ [' '])).flatten) ∧
    (∀ seg : TranscriptSegment,
      seg ∈ segments.filter (overlapsScene start endt) ↔
        (seg ∈ segments ∧ seg.start < endt ∧ start < seg.endTime)) ∧
    ((∀ seg ∈ segments, ¬(seg.start < endt ∧ start < seg.endTime)) →
      scene_transcript start endt segments = []) ∧
    (∀ D : ℚ, 0 ≤ start → endt ≤ D →
      ∀ seg ∈ segments, (seg.endTime ≤ 0 ∨ D ≤ seg.start) →
        seg ∉ segments.filter (overlapsScene start endt)) := by
  have hmem : ∀ seg : TranscriptSegment,
      seg ∈ segments.filter (overlapsScene start endt) ↔
        (seg ∈ segments ∧ seg.start < endt ∧ start < seg.endTime) := by
    intro seg
    rw [List.mem_filter]
    unfold overlapsScene
    rw [Bool.and_eq_true, decide_eq_true_eq, decide_eq_true_eq]
  refine ⟨?_, hmem, ?_, ?_⟩
  · unfold scene_transcript
    rw [foldl_append_texts, List.nil_append]
  · intro hnone
    unfold scene_transcript
    have hfil : segments.filter (overlapsScene start endt) = [] := by
      rw [List.filter_eq_nil_iff]
      intro seg hseg
      unfold overlapsScene
      rw [Bool.and_eq_true, decide_eq_true_eq, decide_eq_true_eq]
      exact fun hc => hnone seg hseg hc
    rw [hfil]
    rfl
  · intro D h0 hD seg hseg hout hmemf
    obtain ⟨-, h1, h2⟩ := (hmem seg).mp hmemf
    rcases hout with hout | hout
    · exact absurd (lt_of_le_of_lt (le_trans hout h0) h2) (lt_irrefl _)
    · exact absurd (lt_of_le_of_lt hout (lt_of_lt_of_le h1 hD)) (lt_irrefl _)

/-- C7 witness: the aligner theorem applied to the scene [0, 10) and a
single non-overlapping segment, discharging the no-overlap hypothesis to
obtain the empty transcript. -/
theorem scene_transcript_aligner_witness :
    (∀ seg ∈ ([⟨(20 : ℚ), (30 : ℚ), "x".data⟩] : List TranscriptSegment),
      ¬(seg.start < (10 : ℚ) ∧ (0 : ℚ) < seg.endTime)) ∧
    scene_transcript 0 10 [⟨(20 : ℚ), (30 : ℚ), "x".data⟩] = [] :=
  ⟨by decide,
    (scene_transcript_aligner 0 10 [⟨(20 : ℚ), (30 : ℚ), "x".data⟩]).2.2.1
      (by decide)⟩

/-- The per-video sort of _merge_overlapping_segments
(src/src/core/video_trimmer.py, line 316): a stable sort by start_time,
modelled by insertion sort (Python sorted is stable). -/
def sortByStartTime (segments : List SearchResult) : List SearchResult :=
  List.insertionSort (fun a b => a.start_time ≤ b.start_time) segments

/-- The grouping walk of _merge_overlapping_segments
(src/src/core/video_trimmer.py, lines 317-328): current_group is the list
built so far (cur before its final element lastSeg); the next segment joins
the group exactly when its start_time is at most the end_time of the LAST
APPENDED segment plus 5 seconds, the hard-coded merge gap; otherwise the
group is emitted and a fresh group starts. -/
def mergeAux (cur : List SearchResult) (lastSeg : SearchResult) :
    List SearchResult → List (List SearchResult)
  | [] => [cur ++ [lastSeg]]
  | s :: rest =>
    if s.start_time ≤ lastSeg.end_time + 5 then
      mergeAux (cur ++ [lastSeg]) s rest
    else
      (cur ++ [lastSeg]) :: mergeAux [] s rest

/-- _merge_overlapping_segments (src/src/core/video_trimmer.py, lines
310-329). -/
def merge_overlapping_segments (segments : List SearchResult) :
    List (List SearchResult) :=
  match sortByStartTime segments with
  | [] => []
  | s :: rest => mergeAux [] s rest

/-- The merger as the specification words it: the walk compares each next
segment against the MAXIMUM end_time over the whole current group.  This
definition exists only to be compared against merge_overlapping_segments
above. -/
def mergeSpecAux (cur : List SearchResult) (curEnd : ℚ) :
    List SearchResult → List (List SearchResult)
  | [] => [cur]
  | s :: rest =>
    if s.start_time ≤ curEnd + 5 then
      mergeSpecAux (cur ++ [s]) (max curEnd s.end_time) rest
    else
      cur :: mergeSpecAux [s] s.end_time rest

/-- Specification-worded merger over a sorted input (companion of
mergeSpecAux). -/
def merge_spec_max_end (segments : List SearchResult) :
    List (List SearchResult) :=
  match sortByStartTime segments with
  | [] => []
  | s :: rest => mergeSpecAux [s] s.end_time rest

/-- Python min over the start times of a merged group
(src/src/core/video_trimmer.py, line 273); 0 for the empty list, which the
code never passes. -/
def groupStart : List SearchResult → ℚ
  | [] => 0
  | s :: rest => rest.foldl (fun m r => min m r.start_time) s.start_time

/-- Python max over the end times of a merged group
(src/src/core/video_trimmer.py, line 274); 0 for the empty list, which the
code never passes. -/
def groupEnd : List SearchResult → ℚ
  | [] => 0
  | s :: rest => rest.foldl (fun m r => max m r.end_time) s.end_time

/-- The play segments cut for one video in
create_merged_video_from_search_results (src/src/core/video_trimmer.py,
lines 269-274): each merged group spans min start_time to max end_time. -/
def play_segments (segments : List SearchResult) : List (ℚ × ℚ) :=
  (merge_overlapping_segments segments).map
    (fun g => (groupStart g, groupEnd g))

/-- C2 counterexample: with the nested segments [0,100), [10,20), [30,40)
of one video, the code compares 30 against the last appended end 20 + 5 and
splits, producing the groups [0,100),[10,20) and [30,40); the maximum-end
rule in the claim would have kept one single group because 30 is at most
100 + 5.  The two rules therefore disagree on this input. -/
theorem merge_overlapping_segments_not_max_end :
    merge_overlapping_segments
        [⟨"a".data, "v".data, "t".data, 1, 0, 100, [], 1⟩,
         ⟨"b".data, "v".data, "t".data, 2, 10, 20, [], 1⟩,
         ⟨"c".data, "v".data, "t".data, 3, 30, 40, [], 1⟩] =
      [[⟨"a".data, "v".data, "t".data, 1, 0, 100, [], 1⟩,
        ⟨"b".data, "v".data, "t".data, 2, 10, 20, [], 1⟩],
       [⟨"c".data, "v".data, "t".data, 3, 30, 40, [], 1⟩]] ∧
    merge_spec_max_end
        [⟨"a".data, "v".data, "t".data, 1, 0, 100, [], 1⟩,
         ⟨"b".data, "v".data, "t".data, 2, 10, 20, [], 1⟩,
         ⟨"c".data, "v".data, "t".data, 3, 30, 40, [], 1⟩] =
      [[⟨"a".data, "v".data, "t".data, 1, 0, 100, [], 1⟩,
        ⟨"b".data, "v".data, "t".data, 2, 10, 20, [], 1⟩,
        ⟨"c".data, "v".data, "t".data, 3, 30, 40, [], 1⟩]] ∧
    merge_overlapping_segments
        [⟨"a".data, "v".data, "t".data, 1, 0, 100, [], 1⟩,
         ⟨"b".data, "v".data, "t".data, 2, 10, 20, [], 1⟩,
         ⟨"c".data, "v".data, "t".data, 3, 30, 40, [], 1⟩] ≠
      merge_spec_max_end
        [⟨"a".data, "v".data, "t".data, 1, 0, 100, [], 1⟩,
         ⟨"b".data, "v".data, "t".data, 2, 10, 20, [], 1⟩,
         ⟨"c".data, "v".data, "t".data, 3, 30, 40, [], 1⟩] := by
  have h1 : merge_overlapping_segments
      [⟨"a".data, "v".data, "t".data, 1, 0, 100, [], 1⟩,
       ⟨"b".data, "v".data, "t".data, 2, 10, 20, [], 1⟩,
       ⟨"c".data, "v".data, "t".data, 3, 30, 40, [], 1⟩] =
      [[⟨"a".data, "v".data, "t".data, 1, 0, 100, [], 1⟩,
        ⟨"b".data, "v".data, "t".data, 2, 10, 20, [], 1⟩],
       [⟨"c".data, "v".data, "t".data, 3, 30, 40, [], 1⟩]] := by
    norm_num [merge_overlapping_segments, sortByStartTime, mergeAux,
      List.insertionSort, List.orderedInsert]
  have h2 : merge_spec_max_end
      [⟨"a".data, "v".data, "t".data, 1, 0, 100, [], 1⟩,
       ⟨"b".data, "v".data, "t".data, 2, 10, 20, [], 1⟩,
       ⟨"c".data, "v".data, "t".data, 3, 30, 40, [], 1⟩] =
      [[⟨"a".data, "v".data, "t".data, 1, 0, 100, [], 1⟩,
        ⟨"b".data, "v".data, "t".data, 2, 10, 20, [], 1⟩,
        ⟨"c".data, "v".data, "t".data, 3, 30, 40, [], 1⟩]] := by
    norm_num [merge_spec_max_end, sortByStartTime, mergeSpecAux,
      List.insertionSort, List.orderedInsert]
  refine ⟨h1, h2, ?_⟩
  rw [h1, h2]
  decide

theorem mergeAux_flatten (rest : List SearchResult) :
    ∀ (cur : List SearchResult) (lastSeg : SearchResult),
      (mergeAux cur lastSeg rest).flatten = cur ++ [lastSeg] ++ rest := by
  induction rest with
  | nil => intro cur lastSeg; simp [mergeAux]
  | cons s rest ih =>
    intro cur lastSeg
    rw [mergeAux]
    split
    · rw [ih]
      simp [List.append_assoc]
    · rw [List.flatten_cons, ih]
      simp [List.append_assoc]

theorem mergeAux_groups_ne_nil (rest : List SearchResult) :
    ∀ (cur : List SearchResult) (lastSeg : SearchResult),
      ∀ g ∈ mergeAux cur lastSeg rest, g ≠ [] := by
  induction rest with
  | nil =>
    intro cur lastSeg g hg
    rw [mergeAux, List.mem_singleton] at hg
    rw [hg]
    simp
  | cons s rest ih =>
    intro cur lastSeg g hg
    rw [mergeAux] at hg
    split at hg
    · exact ih _ _ g hg
    · rcases List.mem_cons.mp hg with hg | hg
      · rw [hg]; simp
      · exact ih _ _ g hg

/-- C10: for every input list of selected segments,
_merge_overlapping_segments returns a list of non-empty groups whose
concatenation in output order is exactly the input sorted by start_time (a
stable sort), hence a permutation of the input: every input segment lands
in exactly one group, none is dropped and none is duplicated. -/
theorem merge_overlapping_segments_partition (segments : List SearchResult) :
    (∀ g ∈ merge_overlapping_segments segments, g ≠ []) ∧
    (merge_overlapping_segments segments).flatten = sortByStartTime segments ∧
    List.Perm (merge_overlapping_segments segments).flatten segments := by
  have hflat : (merge_overlapping_segments segments).flatten =
      sortByStartTime segments := by
    unfold merge_overlapping_segments
    cases hsort : sortByStartTime segments with
    | nil => rfl
    | cons s rest =>
      rw [mergeAux_flatten]
      rfl
  refine ⟨?_, hflat, ?_⟩
  · intro g hg
    unfold merge_overlapping_segments at hg
    cases hsort : sortByStartTime segments with
    | nil => rw [hsort] at hg; exact absurd hg (List.not_mem_nil g)
    | cons s rest =>
      rw [hsort] at hg
      exact mergeAux_groups_ne_nil rest [] s g hg
  · rw [hflat]
    exact List.perm_insertionSort _ _

theorem mergeAux_first_group (rest : List SearchResult) :
    ∀ (cur : List SearchResult) (lastSeg : SearchResult),
      ∃ g gs, mergeAux cur lastSeg rest = (cur ++ [lastSeg] ++ g) :: gs := by
  induction rest with
  | nil =>
    intro cur lastSeg
    exact ⟨[], [], by simp [mergeAux]⟩
  | cons s rest ih =>
    intro cur lastSeg
    rw [mergeAux]
    split
    · obtain ⟨g, gs, heq⟩ := ih (cur ++ [lastSeg]) s
      refine ⟨[s] ++ g, gs, ?_⟩
      rw [heq]
      simp [List.append_assoc]
    · exact ⟨[], mergeAux [] s rest, by simp⟩

theorem mergeAux_group_chain (rest : List SearchResult) :
    ∀ (cur : List SearchResult) (lastSeg : SearchResult),
      List.Chain' (fun a b : SearchResult => b.start_time ≤ a.end_time + 5)
        (cur ++ [lastSeg]) →
      ∀ g ∈ mergeAux cur lastSeg rest,
        List.Chain' (fun a b : SearchResult => b.start_time ≤ a.end_time + 5)
          g := by
  induction rest with
  | nil =>
    intro cur lastSeg hch g hg
    rw [mergeAux, List.mem_singleton] at hg
    rw [hg]
    exact hch
  | cons s rest ih =>
    intro cur lastSeg hch g hg
    rw [mergeAux] at hg
    split at hg
    · next hcond =>
      refine ih (cur ++ [lastSeg]) s ?_ g hg
      rw [List.chain'_append]
      refine ⟨hch, List.chain'_singleton _, fun x hx y hy => ?_⟩
      have hx' : lastSeg = x := by
        have hx2 := Option.mem_def.mp hx
        rw [List.getLast?_concat] at hx2
        exact Option.some.inj hx2
      have hy' : s = y := by
        have hy2 := Option.mem_def.mp hy
        exact Option.some.inj hy2
      rw [← hx', ← hy']
      exact hcond
    · next hcond =>
      rcases List.mem_cons.mp hg with hg | hg
      · rw [hg]
        exact hch
      · exact ih [] s (List.chain'_singleton s) g hg

theorem mergeAux_between_chain (rest : List SearchResult) :
    ∀ (cur : List SearchResult) (lastSeg : SearchResult),
      List.Chain'
        (fun g h : List SearchResult =>
          ∀ x ∈ g.getLast?, ∀ y ∈ h.head?, x.end_time + 5 < y.start_time)
        (mergeAux cur lastSeg rest) := by
  induction rest with
  | nil =>
    intro cur lastSeg
    rw [mergeAux]
    exact List.chain'_singleton _
  | cons s rest ih =>
    intro cur lastSeg
    rw [mergeAux]
    split
    · exact ih _ s
    · next hcond =>
      rw [List.chain'_cons']
      refine ⟨fun h2 hh2 => ?_, ih [] s⟩
      obtain ⟨g, gs, heq⟩ := mergeAux_first_group rest [] s
      rw [heq] at hh2
      have hh2' : [] ++ [s] ++ g = h2 := by
        have := Option.mem_def.mp hh2
        rw [List.head?_cons] at this
        exact Option.some.inj this
      intro x hx y hy
      have hx' : lastSeg = x := by
        have hx2 := Option.mem_def.mp hx
        rw [List.getLast?_concat] at hx2
        exact Option.some.inj hx2
      have hy' : s = y := by
        have hy2 := Option.mem_def.mp hy
        rw [← hh2'] at hy2
        exact Option.some.inj hy2
      rw [← hx', ← hy']
      exact lt_of_not_le hcond

/-- C2 (amended/corrected): the merge pass sorts the selected scenes of one
video by start_time and walks them, adding a scene to the current group
exactly when its start_time is at most the end_time of the MOST RECENTLY
ADDED scene plus the hard-coded merge gap of 5 seconds (not the maximum
end_time over the whole group, which differs when a scene is nested inside
an earlier, longer one); otherwise the group is closed and a new one
started.  Hence inside every output group consecutive scenes satisfy
next.start_time at most prev.end_time + 5, and across consecutive groups
the next group opens with a scene starting strictly more than 5 seconds
after the end of the last scene appended to the previous group.  Each play
segment spans min start_time to max end_time of its group; the inputs
[10,20), [22,30), [50,60) yield exactly the two segments [10,30) and
[50,60). -/
theorem merge_overlapping_segments_grouping (segments : List SearchResult) :
    (∀ g ∈ merge_overlapping_segments segments,
      List.Chain' (fun a b : SearchResult => b.start_time ≤ a.end_time + 5)
        g) ∧
    List.Chain'
      (fun g h : List SearchResult =>
        ∀ x ∈ g.getLast?, ∀ y ∈ h.head?, x.end_time + 5 < y.start_time)
      (merge_overlapping_segments segments) ∧
    play_segments
        [⟨"s1".data, "v".data, "t".data, 1, 10, 20, [], 1⟩,
         ⟨"s2".data, "v".data, "t".data, 2, 22, 30, [], 1⟩,
         ⟨"s3".data, "v".data, "t".data, 3, 50, 60, [], 1⟩] =
      [((10 : ℚ), (30 : ℚ)), (50, 60)] := by
  refine ⟨?_, ?_, ?_⟩
  · intro g hg
    unfold merge_overlapping_segments at hg
    cases hsort : sortByStartTime segments with
    | nil =>
      rw [hsort] at hg
      exact absurd hg (List.not_mem_nil g)
    | cons s rest =>
      rw [hsort] at hg
      exact mergeAux_group_chain rest [] s (List.chain'_singleton s) g hg
  · unfold merge_overlapping_segments
    cases hsort : sortByStartTime segments with
    | nil => exact List.chain'_nil
    | cons s rest => exact mergeAux_between_chain rest [] s
  · norm_num [play_segments, merge_overlapping_segments, sortByStartTime,
      mergeAux, List.insertionSort, List.orderedInsert, groupStart, groupEnd,
      min_def, max_def]

/-- The sort key of create_merged_video_from_search_results
(src/src/core/video_trimmer.py, line 245): Python tuple comparison on
(video_id, start_time), i.e. lexicographically smaller video_id first and
start_time breaking ties. -/
def resultSortKey (a b : SearchResult) : Prop :=
  a.video_id < b.video_id ∨
    (a.video_id = b.video_id ∧ a.start_time ≤ b.start_time)

instance : DecidableRel resultSortKey :=
  fun a b => inferInstanceAs (Decidable (_ ∨ _))

instance : IsTotal SearchResult resultSortKey := by
  refine ⟨fun a b => ?_⟩
  rcases lt_trichotomy a.video_id b.video_id with h | h | h
  · exact Or.inl (Or.inl h)
  · rcases le_total a.start_time b.start_time with hst | hst
    · exact Or.inl (Or.inr ⟨h, hst⟩)
    · exact Or.inr (Or.inr ⟨h.symm, hst⟩)
  · exact Or.inr (Or.inl h)

instance : IsTrans SearchResult resultSortKey := by
  refine ⟨fun a b c hab hbc => ?_⟩
  rcases hab with hab | ⟨hab, hab2⟩ <;> rcases hbc with hbc | ⟨hbc, hbc2⟩
  · exact Or.inl (lt_trans hab hbc)
  · exact Or.inl (by rw [← hbc]; exact hab)
  · exact Or.inl (by rw [hab]; exact hbc)
  · exact Or.inr ⟨hab.trans hbc, le_trans hab2 hbc2⟩

/-- The initial sort of create_merged_video_from_search_results
(src/src/core/video_trimmer.py, line 245), modelled by the stable insertion
sort under the tuple key. -/
def sorted_results (search_results : List SearchResult) : List SearchResult :=
  List.insertionSort resultSortKey search_results

/-- First-seen key order of a Python dict built by insertion
(src/src/core/video_trimmer.py, lines 248-255): each video id appears once,
at the position of its first occurrence. -/
def firstSeenOrder : List PyStr → List PyStr
  | [] => []
  | x :: xs => x :: (firstSeenOrder xs).filter (fun y => decide (y ≠ x))

/-- The order in which create_merged_video_from_search_results emits the
per-video segment groups (src/src/core/video_trimmer.py, lines 244-262):
the video_segments dict is keyed in first-occurrence order of the SORTED
result list, and the assembly loop walks that dict order. -/
def video_group_order (search_results : List SearchResult) : List PyStr :=
  firstSeenOrder ((sorted_results search_results).map (fun r => r.video_id))

/-- C4 counterexample: two scenes whose source videos appear in the input
in the order "b" then "a".  The assembly order is ["a", "b"] because the
code sorts by (video_id, start_time) before grouping, while the input
encounter order the claim states is ["b", "a"]. -/
theorem video_group_order_not_encounter_order :
    video_group_order
        [⟨"sb".data, "b".data, "tb".data, 1, 0, 10, [], 1⟩,
         ⟨"sa".data, "a".data, "ta".data, 1, 0, 10, [], 1⟩] =
      ["a".data, "b".data] ∧
    firstSeenOrder
        (([⟨"sb".data, "b".data, "tb".data, 1, 0, 10, [], 1⟩,
           ⟨"sa".data, "a".data, "ta".data, 1, 0, 10, [], 1⟩] :
          List SearchResult).map (fun r => r.video_id)) =
      ["b".data, "a".data] ∧
    video_group_order
        [⟨"sb".data, "b".data, "tb".data, 1, 0, 10, [], 1⟩,
         ⟨"sa".data, "a".data, "ta".data, 1, 0, 10, [], 1⟩] ≠
      firstSeenOrder
        (([⟨"sb".data, "b".data, "tb".data, 1, 0, 10, [], 1⟩,
           ⟨"sa".data, "a".data, "ta".data, 1, 0, 10, [], 1⟩] :
          List SearchResult).map (fun r => r.video_id)) := by
  refine ⟨by decide, by decide, by decide⟩

theorem firstSeenOrder_mem (l : List PyStr) (y : PyStr) :
    y ∈ firstSeenOrder l ↔ y ∈ l := by
  induction l with
  | nil => exact Iff.rfl
  | cons x xs ih =>
    rw [firstSeenOrder]
    constructor
    · intro hy
      rcases List.mem_cons.mp hy with hy | hy
      · exact hy ▸ List.mem_cons_self _ _
      · exact List.mem_cons_of_mem _ (ih.mp (List.mem_filter.mp hy).1)
    · intro hy
      rcases List.mem_cons.mp hy with hy | hy
      · exact hy ▸ List.mem_cons_self _ _
      · by_cases hxy : y = x
        · exact hxy ▸ List.mem_cons_self _ _
        · refine List.mem_cons_of_mem _ (List.mem_filter.mpr ⟨ih.mpr hy, ?_⟩)
          exact decide_eq_true hxy

theorem firstSeenOrder_sorted (l : List PyStr)
    (hs : List.Sorted (fun u v : PyStr => u ≤ v) l) :
    List.Sorted (fun u v : PyStr => u < v) (firstSeenOrder l) := by
  induction l with
  | nil => exact List.sorted_nil
  | cons x xs ih =>
    rw [firstSeenOrder, List.sorted_cons]
    constructor
    · intro y hy
      obtain ⟨hy1, hy2⟩ := List.mem_filter.mp hy
      have hle : x ≤ y :=
        (List.sorted_cons.mp hs).1 y ((firstSeenOrder_mem xs y).mp hy1)
      have hne : y ≠ x := of_decide_eq_true hy2
      exact lt_of_le_of_ne hle (Ne.symm hne)
    · exact List.Pairwise.filter _ (ih (List.sorted_cons.mp hs).2)

/-- C4 (amended/corrected): the assembled output orders the per-video
segment groups by ascending lexicographic video_id — the key of the initial
sort — not by input encounter order; the group order lists each input video
id exactly once (it is strictly sorted, hence duplicate-free) and contains
precisely the video ids occurring among the selected scenes. -/
theorem video_group_order_sorted_by_id (search_results : List SearchResult) :
    List.Sorted (fun u v : PyStr => u < v)
      (video_group_order search_results) ∧
    ∀ v : PyStr, v ∈ video_group_order search_results ↔
      v ∈ search_results.map (fun r => r.video_id) := by
  constructor
  · have h1 : List.Sorted resultSortKey (sorted_results search_results) :=
      List.sorted_insertionSort resultSortKey search_results
    have h2 : List.Sorted (fun u v : PyStr => u ≤ v)
        ((sorted_results search_results).map (fun r => r.video_id)) := by
      refine List.Pairwise.map _ (fun a b hab => ?_) h1
      rcases hab with hab | ⟨hab, -⟩
      · exact le_of_lt hab
      · exact le_of_eq hab
    exact firstSeenOrder_sorted _ h2
  · intro v
    rw [video_group_order, firstSeenOrder_mem]
    exact List.Perm.mem_iff
      (List.Perm.map (fun r => r.video_id)
        (List.perm_insertionSort resultSortKey search_results))

/-- The query sanitization of create_merged_video_from_search_results
(src/src/core/video_trimmer.py, lines 296-297): keep only alphanumerics,
space, hyphen and underscore; call rstrip() — after the filter the only
whitespace character that can remain is the space, so rstrip amounts to
dropping trailing spaces; then replace spaces with underscores and truncate
to 50 characters.  Char.isAlphanum is the ASCII reading of Python
isalnum(). -/
def sanitize_query (query : PyStr) : PyStr :=
  let filtered := query.filter
    (fun c => c.isAlphanum || c == ' ' || c == '-' || c == '_')
  let stripped := (filtered.reverse.dropWhile (fun c => c == ' ')).reverse
  (stripped.map (fun c => if c == ' ' then '_' else c)).take 50

/-- The sanitization as the claim words it: filter, replace spaces,
truncate — with no rstrip step.  Exists only to be compared against
sanitize_query. -/
def sanitize_query_spec (query : PyStr) : PyStr :=
  ((query.filter
      (fun c => c.isAlphanum || c == ' ' || c == '-' || c == '_')).map
    (fun c => if c == ' ' then '_' else c)).take 50

/-- Python format .1f applied to the total duration
(src/src/core/video_trimmer.py, line 302), modelled over the rational
duration: scale by ten, round to an integer (Mathlib round; Python rounds
the underlying binary double half-to-even, which agrees away from exact
ties), and print integer part, dot, and one tenths digit. -/
def format_one_decimal (x : ℚ) : PyStr :=
  let t : ℤ := round (10 * x)
  if t < 0 then
    '-' :: (Nat.toDigits 10 (t.natAbs / 10) ++
      ('.' :: Nat.toDigits 10 (t.natAbs % 10)))
  else
    Nat.toDigits 10 (t.toNat / 10) ++ ('.' :: Nat.toDigits 10 (t.toNat % 10))

/-- The output filename of create_merged_video_from_search_results
(src/src/core/video_trimmer.py, lines 296-302), with the segment-file
count, the summed duration and the uuid-derived suffix abstracted as
arguments. -/
def merged_filename (query : PyStr) (segment_count : ℕ) (total_duration : ℚ)
    (unique_suffix : PyStr) : PyStr :=
  "merged_".data ++ sanitize_query query ++ "_".data ++
    Nat.toDigits 10 segment_count ++ "segments_".data ++
    format_one_decimal total_duration ++ "s_".data ++ unique_suffix ++
    ".mp4".data

/-- The filename as the claim words it, using the rstrip-free
sanitization. -/
def merged_filename_spec (query : PyStr) (segment_count : ℕ)
    (total_duration : ℚ) (unique_suffix : PyStr) : PyStr :=
  "merged_".data ++ sanitize_query_spec query ++ "_".data ++
    Nat.toDigits 10 segment_count ++ "segments_".data ++
    format_one_decimal total_duration ++ "s_".data ++ unique_suffix ++
    ".mp4".data

theorem format_one_decimal_eq (x : ℚ) (t : ℤ) (ht : round (10 * x) = t)
    (h0 : 0 ≤ t) :
    format_one_decimal x =
      Nat.toDigits 10 (t.toNat / 10) ++
        ('.' :: Nat.toDigits 10 (t.toNat % 10)) := by
  unfold format_one_decimal
  rw [ht, if_neg (not_lt.mpr h0)]

/-- C8 counterexample: for the query "ab " (trailing space kept by the
filter) the code rstrips before replacing spaces and produces
merged_ab_1segments_10.0s_x.mp4, while the sanitization pipeline stated in
the claim (no rstrip) would turn the trailing space into an underscore and
produce merged_ab__1segments_10.0s_x.mp4. -/
theorem merged_filename_rstrip_counterexample :
    merged_filename "ab ".data 1 10 "x".data =
      "merged_ab_1segments_10.0s_x.mp4".data ∧
    merged_filename_spec "ab ".data 1 10 "x".data =
      "merged_ab__1segments_10.0s_x.mp4".data ∧
    merged_filename "ab ".data 1 10 "x".data ≠
      merged_filename_spec "ab ".data 1 10 "x".data := by
  have hfmt : format_one_decimal 10 = "10.0".data := by
    rw [format_one_decimal_eq 10 100 (by norm_num [round_eq]) (by norm_num)]
    decide
  have h1 : merged_filename "ab ".data 1 10 "x".data =
      "merged_ab_1segments_10.0s_x.mp4".data := by
    unfold merged_filename
    rw [hfmt]
    decide
  have h2 : merged_filename_spec "ab ".data 1 10 "x".data =
      "merged_ab__1segments_10.0s_x.mp4".data := by
    unfold merged_filename_spec
    rw [hfmt]
    decide
  refine ⟨h1, h2, ?_⟩
  rw [h1, h2]
  decide

/-- C8 (amended/corrected): the merged-output filename is deterministically
merged_ + sanitized query + _ + segment count + segments_ + duration
rounded to one decimal + s_ + unique suffix + extension, where sanitization
removes every character that is not alphanumeric, space, hyphen or
underscore, then STRIPS TRAILING WHITESPACE, then replaces spaces with
underscores and truncates to 50 characters; 3 segments totaling 45.67
seconds for the query "explain architecture!!" give a name beginning
merged_explain_architecture_3segments_45.7s_. -/
theorem merged_filename_contract :
    (∀ unique_suffix : PyStr,
      merged_filename "explain architecture!!".data 3 (4567 / 100)
          unique_suffix =
        "merged_explain_architecture_3segments_45.7s_".data ++
          unique_suffix ++ ".mp4".data) ∧
    (∀ (query : PyStr) (n : ℕ) (d : ℚ) (unique_suffix : PyStr),
      merged_filename query n d unique_suffix =
        "merged_".data ++ sanitize_query query ++ "_".data ++
          Nat.toDigits 10 n ++ "segments_".data ++ format_one_decimal d ++
          "s_".data ++ unique_suffix ++ ".mp4".data) := by
  constructor
  · intro unique_suffix
    have hfmt : format_one_decimal (4567 / 100) = "45.7".data := by
      rw [format_one_decimal_eq (4567 / 100) 457 (by norm_num [round_eq])
        (by norm_num)]
      decide
    unfold merged_filename
    rw [hfmt]
    simp only [← List.append_assoc]
    congr 1
  · intro query n d unique_suffix
    rfl
